import Mathlib

/-!
Verification of src/resume-generator/resume_template.js.

The JavaScript source is shallowly embedded: JS strings become Lean strings
(internally manipulated as lists of characters, which is what the proofs
recurse on); nullable JS values become Option; JS objects become structures.
TextRun/Paragraph styling (font, size, spacing) carries no information
relevant to the verified properties and is dropped: a TextRun is modelled by
its text and bold flag (Span), a rendered paragraph by its visible text.
JS String.prototype.toLowerCase is modelled character-wise by Char.toLower,
and the whitespace class of String.prototype.trim by the ASCII whitespace
characters; both agree with JS on all inputs relevant here.
-/

/-- JS-like whitespace predicate used by the trim model. -/
def isJsWS (c : Char) : Bool :=
  c == ' ' || c == '\t' || c == '\n' || c == '\r' || c == '\x0b' || c == '\x0c'

/-- Model of String.prototype.trim: drop whitespace from both ends. -/
def trimList (l : List Char) : List Char :=
  ((l.dropWhile isJsWS).reverse.dropWhile isJsWS).reverse

/-- Model of String.prototype.toLowerCase, character-wise. -/
def lowerList (l : List Char) : List Char := l.map Char.toLower

/-- Model of String.prototype.indexOf: index of the first occurrence of
needle in hay, none when absent (JS returns -1). -/
def idxOf? (needle : List Char) : List Char → Option Nat
  | [] => if needle <+: ([] : List Char) then some 0 else none
  | c :: t => if needle <+: (c :: t) then some 0 else (idxOf? needle t).map (· + 1)

/-- Model of JS a.includes(b): b occurs as a contiguous substring of a. -/
def jsIncludes (a b : List Char) : Bool := (idxOf? b a).isSome

/-- PRIORITY_BOLD from resume_template.js lines 27-34. -/
def PRIORITY_BOLD : List String := [
  "Azure Blob Storage", "Azure", "Power BI", "Power Query", "Power Automate",
  "Python", "SQL", "DAX", "MySQL", "ETL",
  "FLAIR", "FOCUS", "HMGP", "FEMA", "ARIMA", "Prophet",
  "Flask", "MongoDB", "Selenium", "Scikit-learn", "LangChain",
  "Snowflake", "PostgreSQL", "SQL Server", "Spark", "Airflow",
  "Databricks", "GCP", "AWS", "Docker", "REST API", "FastAPI"]

/-- NEVER_BOLD from resume_template.js lines 36-39. -/
def NEVER_BOLD : List String := [
  "SHA-256", "KPIs", "SLA", "CSRF", ".NET", "VBA", "Git", "GitHub",
  "SharePoint", "OneDrive", "Windows Task Scheduler", "Excel", "JSON", "CSV", "XML"]

/-- SKIP_LEADERSHIP_STARTS from resume_template.js lines 41-44. -/
def SKIP_LEADERSHIP_STARTS : List String := [
  "Collaborated", "Onboarded", "Trained", "Presented", "Authored",
  "Led a", "Worked with", "Partnered"]

/-- A TextRun of splitBulletWithBolds, reduced to its text and bold flag. -/
structure Span where
  text : String
  bold : Bool
deriving Repr, DecidableEq

/-- The intermediate segment record of splitBulletWithBolds
(fields text / bold / startOffset of the JS object literal). -/
structure Seg where
  text : List Char
  bold : Bool
  startOffset : Nat
deriving Repr, DecidableEq

/-- The filter building termsToCheck (resume_template.js lines 56-63):
keep priority terms not on the never-bold list that fuzzily overlap
(case-insensitive substring in either direction) some matched keyword,
with an empty keyword list disabling the overlap restriction. -/
def termsToCheck (matchedKeywords : List String) : List (List Char) :=
  (PRIORITY_BOLD.map String.toList).filter (fun t =>
    !(NEVER_BOLD.map String.toList).contains t &&
    (matchedKeywords.isEmpty ||
      matchedKeywords.any (fun kw =>
        jsIncludes (lowerList kw.toList) (lowerList t) ||
        jsIncludes (lowerList t) (lowerList kw.toList))))

/-- Stable insertion step for the length-descending sort. -/
def insertLenDesc (x : List Char) : List (List Char) → List (List Char)
  | [] => [x]
  | y :: ys => if y.length < x.length then x :: y :: ys else y :: insertLenDesc x ys

/-- Model of termsToCheck.sort((a, b) => b.length - a.length): stable sort
by length, longest first. -/
def sortLenDesc (l : List (List Char)) : List (List Char) :=
  l.foldl (fun acc x => insertLenDesc x acc) []

/-- The three pieces a segment is split into when a term is bolded
(resume_template.js lines 80-86); empty before/after pieces are not pushed. -/
def splitSegPieces (seg : Seg) (idx tlen : Nat) : List Seg :=
  let before := seg.text.take idx
  let matchPiece := (seg.text.drop idx).take tlen
  let after := seg.text.drop (idx + tlen)
  (if before.isEmpty then [] else [⟨before, false, seg.startOffset⟩]) ++
  [⟨matchPiece, true, seg.startOffset + idx⟩] ++
  (if after.isEmpty then [] else [⟨after, false, seg.startOffset + idx + tlen⟩])

/-- One pass of the inner for-loop of splitBulletWithBolds over the segment
list for a single term (resume_template.js lines 72-89). The Bool argument
is the didBold flag; the result pairs the new segment list with the final
flag value. -/
def processTerm (term : List Char) (midpoint : Nat) (didBold : Bool) :
    List Seg → List Seg × Bool
  | [] => ([], didBold)
  | seg :: rest =>
    if seg.bold || didBold then
      let r := processTerm term midpoint didBold rest
      (seg :: r.1, r.2)
    else
      match idxOf? (lowerList term) (lowerList seg.text) with
      | none =>
        let r := processTerm term midpoint didBold rest
        (seg :: r.1, r.2)
      | some idx =>
        if midpoint ≤ seg.startOffset + idx then
          let r := processTerm term midpoint didBold rest
          (seg :: r.1, r.2)
        else
          let r := processTerm term midpoint true rest
          (splitSegPieces seg idx term.length ++ r.1, r.2)

/-- The outer for-loop of splitBulletWithBolds over sortedTerms
(resume_template.js lines 70-91), threading boldCount and breaking once
boldCount reaches maxBolds. -/
def applyTerms (midpoint maxBolds : Nat) :
    List (List Char) → List Seg → Nat → List Seg
  | [], segs, _ => segs
  | term :: rest, segs, boldCount =>
    if maxBolds ≤ boldCount then segs
    else
      let r := processTerm term midpoint false segs
      let segs' := if r.2 then r.1 else segs
      applyTerms midpoint maxBolds rest segs' (if r.2 then boldCount + 1 else boldCount)

/-- splitBulletWithBolds (resume_template.js lines 46-101). The text
argument is Option String so that the JS null/undefined cases are
representable; a null matchedKeywords behaves identically to [] in the
source and is modelled as []. -/
def splitBulletWithBolds (text : Option String) (matchedKeywords : List String)
    (maxBolds : Nat := 2) : List Span :=
  let t := (text.getD "").toList
  if t.isEmpty then [⟨"", false⟩]
  else if SKIP_LEADERSHIP_STARTS.any (fun p => decide (p.toList <+: trimList t)) then
    [⟨text.getD "", false⟩]
  else
    let sortedTerms := sortLenDesc (termsToCheck matchedKeywords)
    let midpoint := t.length / 2
    (applyTerms midpoint maxBolds sortedTerms [⟨t, false, 0⟩] 0).map
      (fun s => ⟨s.text.asString, s.bold⟩)

/-- MONTHS table of formatDate (resume_template.js lines 105-108). -/
def MONTHS : List String := [
  "Jan", "Feb", "Mar", "Apr", "May", "Jun",
  "Jul", "Aug", "Sep", "Oct", "Nov", "Dec"]

/-- Model of JS String.prototype.split("-") on a one-character separator. -/
def splitOnDash : List Char → List (List Char)
  | [] => [[]]
  | c :: t =>
    if c = '-' then [] :: splitOnDash t
    else
      match splitOnDash t with
      | [] => [[c]]
      | p :: ps => (c :: p) :: ps

/-- Value of a maximal run of leading decimal digits, none when the first
character is not a digit (the digit-consuming part of JS parseInt). -/
def parseDigits (l : List Char) : Option Nat :=
  match l.takeWhile Char.isDigit with
  | [] => none
  | ds => some (ds.foldl (fun a c => a * 10 + (c.toNat - '0'.toNat)) 0)

/-- Model of JS parseInt(s, 10): skip leading whitespace, optional sign,
then the maximal run of digits; none models NaN. -/
def jsParseInt (l : List Char) : Option Int :=
  match l.dropWhile isJsWS with
  | '-' :: rest => (parseDigits rest).map (fun n => -(n : Int))
  | '+' :: rest => (parseDigits rest).map (fun n => (n : Int))
  | rest => (parseDigits rest).map (fun n => (n : Int))

/-- formatDate (resume_template.js lines 103-118). A JS-falsy date
(null/undefined/empty string) maps to "Present"; otherwise the string is
split on "-", and when it has at least two parts whose second parses via
parseInt to a month number 1..12, the month abbreviation and the first part
are rendered; any other string is returned unchanged. -/
def formatDate (dateStr : Option String) : String :=
  let s := dateStr.getD ""
  if s.toList.isEmpty then "Present"
  else
    match splitOnDash s.toList with
    | year :: monthPart :: _ =>
      match jsParseInt monthPart with
      | some k =>
        let monthIdx : Int := k - 1
        if 0 ≤ monthIdx ∧ monthIdx < 12 then
          (MONTHS.getD monthIdx.toNat "") ++ " " ++ year.asString
        else s
      | none => s
    | _ => s

/-- A date string none of whose interpretations parses: however the string
splits on "-", there is no second part whose parseInt value is a month
number between 1 and 12 (vacuously true when there are fewer than two
parts). formatDate returns such strings unchanged. -/
def formatParseFails (s : String) : Prop :=
  ∀ y mp rest, splitOnDash s.toList = y :: mp :: rest →
    ∀ k : Int, jsParseInt mp = some k → k < 1 ∨ 12 < k

/-- A bullet object of the render payload: text plus matched_keywords.
String bullets of the payload are represented with matched_keywords = []
(the source reads matched_keywords only from object bullets). -/
structure Bullet where
  text : String
  matched_keywords : List String
deriving Repr, DecidableEq

/-- A work-experience entry of the render payload. -/
structure Job where
  company : String
  title : String
  location : Option String
  start_date : Option String
  end_date : Option String
  bullets : List Bullet
deriving Repr, DecidableEq

/-- The date range string of a job heading (resume_template.js lines
225-227): formatted start, en dash, formatted end. -/
def dateRange (start_date end_date : Option String) : String :=
  formatDate start_date ++ " – " ++ formatDate end_date

/-- The visible text of a job's heading paragraph (resume_template.js
lines 230-239): "Company, Title | DateRange". -/
def jobHeading (j : Job) : String :=
  j.company ++ ", " ++ j.title ++ " | " ++ dateRange j.start_date j.end_date

/-- A project entry of the render payload. -/
structure Project where
  name : String
  github_url : Option String
  bullets : List Bullet
deriving Repr, DecidableEq

/-- The rendered block of one project: its name, whether a GitHub link is
shown, and the span lists of its non-empty bullets. -/
structure ProjectBlock where
  name : String
  hasGithubLink : Bool
  bulletSpans : List (List Span)
deriving Repr, DecidableEq

/-- The JS truthiness of an optional string (null/undefined/"" are falsy). -/
def jsTruthy (o : Option String) : Bool := !(o.getD "").isEmpty

/-- The string value of an optional field, "" when absent. -/
def optVal (o : Option String) : String := o.getD ""

/-- Rendering of one project (resume_template.js lines 278-314): the link
is shown only for a github_url starting with "http"; bullets with empty
text are skipped; each rendered bullet goes through splitBulletWithBolds. -/
def renderProject (p : Project) : ProjectBlock :=
  { name := p.name
    hasGithubLink := jsTruthy p.github_url &&
      decide ("http".toList <+: (optVal p.github_url).toList)
    bulletSpans := (p.bullets.filter (fun b => !b.text.isEmpty)).map
      (fun b => splitBulletWithBolds (some b.text) b.matched_keywords) }

/-- buildProjects (resume_template.js lines 270-318), reduced to the list
of rendered project blocks (the section heading paragraph is styling and
carries no project data): an empty projects list yields nothing; otherwise
CV mode renders all projects and resume mode the first three. -/
def buildProjects (projects : List Project) (isCv : Bool) : List ProjectBlock :=
  if projects.isEmpty then []
  else (if isCv then projects else projects.take 3).map renderProject

/-- A skill entry of the render payload. -/
structure Skill where
  name : String
  category : Option String
deriving Repr, DecidableEq

/-- The grouping key of a skill (resume_template.js line 327):
skill.category || "Other". -/
def skillCat (s : Skill) : String :=
  if jsTruthy s.category then optVal s.category else "Other"

/-- Spec-side reference order: each category in the order its first skill
occurs in the input list (the order the claim asserts for the output). -/
def firstSeenCats (skills : List Skill) : List String :=
  skills.foldl (fun acc s => if acc.contains (skillCat s) then acc else acc ++ [skillCat s]) []

/-- Spec-side reference contents: the names under one category, in input
order. -/
def catNames (skills : List Skill) (c : String) : List String :=
  (skills.filter (fun s => skillCat s = c)).map Skill.name

/-- The property names every plain object inherits from Object.prototype
(ECMA-262 section 20.2.3 plus the B.2.2 legacy accessors, as in Node):
looking any of them up on the object literal byCategory yields a truthy
inherited value even though the object has no own entry for it. -/
def OBJECT_PROTOTYPE_KEYS : List String := [
  "constructor", "hasOwnProperty", "isPrototypeOf", "propertyIsEnumerable",
  "toLocaleString", "toString", "valueOf", "__proto__",
  "__defineGetter__", "__defineSetter__", "__lookupGetter__", "__lookupSetter__"]

/-- Truthiness of the lookup byCategory[cat] (resume_template.js line 328)
on the object whose own entries are acc: an own entry (always an array,
hence truthy) or an inherited Object.prototype member. -/
def byCategoryTruthy (acc : List (String × List String)) (cat : String) : Bool :=
  acc.any (fun kv => kv.1 == cat) || OBJECT_PROTOTYPE_KEYS.contains cat

/-- byCategory[cat].push(name) (resume_template.js line 329): append the
name to the own entry stored under cat. -/
def pushCat (acc : List (String × List String)) (cat name : String) :
    List (String × List String) :=
  acc.map (fun kv => if kv.1 = cat then (kv.1, kv.2 ++ [name]) else kv)

/-- The grouping loop of buildSkills (resume_template.js lines 325-330),
with byCategory's own entries as an insertion-ordered list. The guard
`if (!byCategory[cat]) byCategory[cat] = [];` reads through the prototype
chain: when cat names an Object.prototype member the lookup is truthy, the
initialization is skipped, and the following push is called on the
inherited non-array member — a TypeError, modelled as none. -/
def groupByCategory : List Skill → List (String × List String) →
    Option (List (String × List String))
  | [], acc => some acc
  | s :: rest, acc =>
    let cat := skillCat s
    let acc' := if byCategoryTruthy acc cat then acc else acc ++ [(cat, [])]
    if acc'.any (fun kv => kv.1 == cat) then
      groupByCategory rest (pushCat acc' cat s.name)
    else none

/-- The numeric value of a digit string. -/
def strToNat (l : List Char) : Nat :=
  l.foldl (fun a c => a * 10 + (c.toNat - '0'.toNat)) 0

/-- Whether a string is a JS array-index property key: the canonical
base-10 form (no leading zero except "0") of an integer below 2^32 - 1.
Such keys are enumerated before all other keys by Object.entries. -/
def isArrayIndexStr (s : String) : Bool :=
  let l := s.toList
  !l.isEmpty && l.all Char.isDigit && (l = ['0'] || l.head? != some '0') &&
    strToNat l < 4294967295

/-- Insertion step of the ascending numeric sort of array-index entries. -/
def insertNumAsc (x : String × List String) :
    List (String × List String) → List (String × List String)
  | [] => [x]
  | y :: ys =>
    if strToNat x.1.toList < strToNat y.1.toList then x :: y :: ys else y :: insertNumAsc x ys

/-- Ascending numeric sort of array-index entries. -/
def sortNumAsc (l : List (String × List String)) : List (String × List String) :=
  l.foldl (fun acc x => insertNumAsc x acc) []

/-- The enumeration order of Object.entries over byCategory's own entries,
given in insertion order (ECMA-262 OrdinaryOwnPropertyKeys): entries with
array-index keys first in ascending numeric order, then the remaining
entries in insertion order. -/
def jsEntriesOrder (entries : List (String × List String)) :
    List (String × List String) :=
  sortNumAsc (entries.filter (fun kv => isArrayIndexStr kv.1)) ++
    entries.filter (fun kv => !isArrayIndexStr kv.1)

/-- The grouping the spec's wording asks for: one entry per category in
first-seen order, holding that category's names in input order. -/
def firstSeenGrouping (skills : List Skill) : List (String × List String) :=
  (firstSeenCats skills).map (fun c => (c, catNames skills c))

/-- buildSkills (resume_template.js lines 320-345), reduced to the visible
(category, names) lines: an empty skills list yields nothing; otherwise the
byCategory object is built by the grouping loop — which throws (none) when
a category names an Object.prototype member — and enumerated with
Object.entries, producing one line per category. -/
def buildSkills (skills : List Skill) : Option (List (String × List String)) :=
  if skills.isEmpty then some []
  else (groupByCategory skills []).map jsEntriesOrder

/-- The personal record of the render payload. -/
structure Personal where
  name : Option String
  email : Option String
  phone : Option String
  linkedin : Option String
  github : Option String
  portfolio : Option String
  location : Option String
deriving Repr, DecidableEq

/-- Model of JS Array.prototype.join(sep). -/
def joinSep (sep : String) : List String → String
  | [] => ""
  | x :: xs => xs.foldl (fun a s => a ++ sep ++ s) x

/-- contactParts of buildHeader (resume_template.js lines 133-136):
location, phone, email pushed in that order when truthy. -/
def contactParts (p : Personal) : List String :=
  (if jsTruthy p.location then [optVal p.location] else []) ++
  (if jsTruthy p.phone then [optVal p.phone] else []) ++
  (if jsTruthy p.email then [optVal p.email] else [])

/-- The visible texts of the link paragraph of buildHeader (resume_template.js
lines 150-195): linkedin, github, portfolio display their raw field value
(the https-prefixing affects only the hyperlink target), separated by " | ". -/
def linkTexts (p : Personal) : List String :=
  (if jsTruthy p.linkedin then [optVal p.linkedin] else []) ++
  (if jsTruthy p.github then [optVal p.github] else []) ++
  (if jsTruthy p.portfolio then [optVal p.portfolio] else [])

/-- buildHeader (resume_template.js lines 120-208), reduced to the visible
text of each paragraph: the name line always, then the contact line and the
links line only when they have at least one part. -/
def buildHeaderText (p : Personal) : List String :=
  [optVal p.name] ++
  (if (contactParts p).isEmpty then [] else [joinSep " | " (contactParts p)]) ++
  (if (linkTexts p).isEmpty then [] else [joinSep " | " (linkTexts p)])

/-- An education entry of the render payload. -/
structure Education where
  degree : String
  field : Option String
  institution : String
  location : Option String
  gpa : Option String
  end_date : Option String
deriving Repr, DecidableEq

/-- degreeLine of buildEducation (resume_template.js lines 377-379). -/
def degreeLine (e : Education) : String :=
  if jsTruthy e.field then e.degree ++ " in " ++ optVal e.field else e.degree

/-- rightPart of buildEducation (resume_template.js lines 381-383):
formatted end date when truthy, then "GPA: value" when gpa is truthy. -/
def eduRight (e : Education) : List String :=
  (if jsTruthy e.end_date then [formatDate e.end_date] else []) ++
  (if jsTruthy e.gpa then ["GPA: " ++ optVal e.gpa] else [])

/-- The visible text of an education entry's first line (resume_template.js
lines 385-393). -/
def eduLine1 (e : Education) : String :=
  degreeLine e ++ (if (eduRight e).isEmpty then "" else " | " ++ joinSep " | " (eduRight e))

/-- The visible text of an education entry's second line (resume_template.js
lines 395-405): institution, plus the location when truthy. -/
def eduLine2 (e : Education) : String :=
  joinSep ", " ([e.institution] ++ (if jsTruthy e.location then [optVal e.location] else []))

/-- The two visible lines buildEducation emits per entry. -/
def buildEducationLines (e : Education) : List String := [eduLine1 e, eduLine2 e]

/-- Spec-side projection of the present optional fields: a missing or empty
field contributes nothing, a present field contributes exactly its value
(the spec's "omitted from output, never substituted with placeholder text"). -/
def specPresent (fields : List (Option String)) : List String :=
  fields.filterMap (fun o =>
    match o with
    | none => none
    | some s => if s.isEmpty then none else some s)

/-- Spec-side restatement of the header: the name line, then a contact line
joining exactly the present fields among location/phone/email, then a links
line joining exactly the present fields among linkedin/github/portfolio;
a line with no present field is omitted entirely. -/
def specHeaderText (p : Personal) : List String :=
  [optVal p.name] ++
  (match specPresent [p.location, p.phone, p.email] with
   | [] => []
   | l => [joinSep " | " l]) ++
  (match specPresent [p.linkedin, p.github, p.portfolio] with
   | [] => []
   | l => [joinSep " | " l])

/-- Spec-side restatement of an education entry's lines: built from exactly
the present optional fields, with no placeholder for a missing one. -/
def specEduLines (e : Education) : List String :=
  [degreeLine e ++
    (match (if jsTruthy e.end_date then [formatDate e.end_date] else []) ++
           (match e.gpa with
            | none => []
            | some g => if g.isEmpty then [] else ["GPA: " ++ g]) with
     | [] => ""
     | l => " | " ++ joinSep " | " l),
   joinSep ", " ([e.institution] ++ specPresent [e.location])]

/-- A file system state: each path maps to the file content at it, none
when no file exists there. -/
def FSState := String → Option String

/-- The possible outcomes of one fs.writeFileSync call: success, or an
error thrown after k characters of the content reached the file (the
standard possibly-partial failure of a synchronous write). -/
inductive WriteOutcome where
  | ok
  | failAfter (k : Nat)
deriving Repr, DecidableEq

/-- Update one path of a file system state. -/
def updateFS (fs : FSState) (p v : String) : FSState :=
  fun q => if q = p then some v else fs q

/-- Model of fs.writeFileSync(path, content): on success the full content
is at the path; on failure the prefix written before the error is, and the
error propagates (the Bool is false). -/
def writeFileSync (fs : FSState) (path content : String) :
    WriteOutcome → FSState × Bool
  | .ok => (updateFS fs path content, true)
  | .failAfter k => (updateFS fs path (content.toList.take k).asString, false)

/-- generateResume / generateCV / generateCoverLetter all end the same way
(resume_template.js lines 491-492, 522-523, 558-559): the document is
assembled in memory (the buffer argument) and written with a single direct
fs.writeFileSync at outputPath — no temporary location, no rename, no
cleanup of a failed write. -/
def generateResume (buffer outputPath : String) (fs : FSState)
    (w : WriteOutcome) : FSState × Bool :=
  writeFileSync fs outputPath buffer w

/-- The CLI wrapper run().catch (resume_template.js lines 587-590): a
rejected generation is reported and the process exits 1; success exits 0. -/
def runCLI (buffer outputPath : String) (fs : FSState) (w : WriteOutcome) :
    FSState × Nat :=
  let r := generateResume buffer outputPath fs w
  (r.1, if r.2 then 0 else 1)

/-- The concatenation of a segment list's texts. -/
def concatTexts (segs : List Seg) : List Char := (segs.map Seg.text).flatten

/-- The number of bold segments. -/
def countBold (segs : List Seg) : Nat := (segs.filter (fun s => s.bold)).length

/-- The total character length of a segment list. -/
def sumLens (segs : List Seg) : Nat := (segs.map (fun s => s.text.length)).sum

/-- Offset consistency: each segment's startOffset is the base offset plus
the lengths of the segments before it. -/
def offsetsOk : Nat → List Seg → Prop
  | _, [] => True
  | n, s :: t => s.startOffset = n ∧ offsetsOk (n + s.text.length) t

/-- Every bold segment starts strictly before the midpoint. -/
def boldOk (mid : Nat) (segs : List Seg) : Prop :=
  ∀ s ∈ segs, s.bold = true → s.startOffset < mid

theorem idxOf?_spec {needle hay : List Char} {i : Nat} (h : idxOf? needle hay = some i) :
    i ≤ hay.length ∧ needle <+: hay.drop i := by
  induction hay generalizing i with
  | nil =>
    unfold idxOf? at h
    split at h
    · cases h; simpa using (by assumption : needle <+: ([] : List Char))
    · cases h
  | cons c t ih =>
    unfold idxOf? at h
    split at h
    · cases h; simpa using (by assumption : needle <+: c :: t)
    · match hmap : idxOf? needle t with
      | none => rw [hmap] at h; cases h
      | some j =>
        rw [hmap] at h
        simp at h
        obtain ⟨hj, hpre⟩ := ih hmap
        subst h
        exact ⟨by simpa using Nat.succ_le_succ hj, by simpa using hpre⟩

theorem concatTexts_append (a b : List Seg) :
    concatTexts (a ++ b) = concatTexts a ++ concatTexts b := by
  simp [concatTexts]

theorem countBold_append (a b : List Seg) :
    countBold (a ++ b) = countBold a + countBold b := by
  simp [countBold, List.filter_append]

theorem countBold_cons (s : Seg) (l : List Seg) :
    countBold (s :: l) = (if s.bold then 1 else 0) + countBold l := by
  by_cases h : s.bold <;> simp [countBold, List.filter_cons, h, Nat.add_comm]

theorem sumLens_append (a b : List Seg) : sumLens (a ++ b) = sumLens a + sumLens b := by
  simp [sumLens]

theorem offsetsOk_append {n : Nat} {a b : List Seg} :
    offsetsOk n (a ++ b) ↔ offsetsOk n a ∧ offsetsOk (n + sumLens a) b := by
  induction a generalizing n with
  | nil => simp [offsetsOk, sumLens]
  | cons s t ih =>
    have hsum : sumLens (s :: t) = s.text.length + sumLens t := by
      simp [sumLens]
    simp only [List.cons_append, offsetsOk, hsum, List.append_eq]
    rw [ih]
    constructor
    · rintro ⟨h1, ⟨h2, h3⟩⟩
      exact ⟨⟨h1, h2⟩, by rwa [Nat.add_assoc] at h3⟩
    · rintro ⟨⟨h1, h2⟩, h3⟩
      exact ⟨h1, h2, by rwa [Nat.add_assoc]⟩

theorem splitSegPieces_concat (seg : Seg) (idx tlen : Nat) :
    concatTexts (splitSegPieces seg idx tlen) = seg.text := by
  have hdrop : List.drop tlen (List.drop idx seg.text) = List.drop (idx + tlen) seg.text := by
    rw [List.drop_drop, Nat.add_comm]
  have hMA : List.take tlen (List.drop idx seg.text) ++ List.drop (idx + tlen) seg.text
      = List.drop idx seg.text := by
    rw [← hdrop]; exact List.take_append_drop tlen (List.drop idx seg.text)
  have hBMA : List.take idx seg.text ++ (List.take tlen (List.drop idx seg.text)
      ++ List.drop (idx + tlen) seg.text) = seg.text := by
    rw [hMA]; exact List.take_append_drop idx seg.text
  simp only [splitSegPieces]
  by_cases hb : (List.take idx seg.text).isEmpty <;>
    by_cases ha : (List.drop (idx + tlen) seg.text).isEmpty
  · have hb' : List.take idx seg.text = [] := List.isEmpty_iff.mp hb
    have ha' : List.drop (idx + tlen) seg.text = [] := List.isEmpty_iff.mp ha
    rw [hb', ha'] at hBMA
    simp [hb, ha, concatTexts]
    try simpa using hBMA
  · have hb' : List.take idx seg.text = [] := List.isEmpty_iff.mp hb
    rw [hb'] at hBMA
    simp [hb, ha, concatTexts]
    try simpa using hBMA
  · have ha' : List.drop (idx + tlen) seg.text = [] := List.isEmpty_iff.mp ha
    rw [ha'] at hBMA
    simp [hb, ha, concatTexts]
    try simpa using hBMA
  · simp [hb, ha, concatTexts]
    try simpa using hBMA

theorem concatTexts_cons (s : Seg) (l : List Seg) :
    concatTexts (s :: l) = s.text ++ concatTexts l := by
  simp [concatTexts]

theorem splitSegPieces_countBold (seg : Seg) (idx tlen : Nat) :
    countBold (splitSegPieces seg idx tlen) = 1 := by
  simp only [splitSegPieces]
  split <;> split <;> simp [countBold, List.filter_append, List.filter_cons]

theorem splitSegPieces_sumLens (seg : Seg) (idx tlen : Nat)
    (h : idx + tlen ≤ seg.text.length) :
    sumLens (splitSegPieces seg idx tlen) = seg.text.length := by
  simp only [splitSegPieces]
  split <;> split
  all_goals rename_i hb ha
  all_goals try (have hbn := congrArg List.length (List.isEmpty_iff.mp hb))
  all_goals try (have han := congrArg List.length (List.isEmpty_iff.mp ha))
  all_goals try simp only [List.length_take, List.length_drop, List.length_nil] at *
  all_goals simp only [List.nil_append, List.append_nil, List.cons_append,
    List.singleton_append, sumLens, List.map_cons, List.map_nil, List.sum_cons,
    List.sum_nil, List.length_take, List.length_drop]
  all_goals omega

theorem splitSegPieces_offsetsOk (seg : Seg) (idx tlen : Nat)
    (h : idx + tlen ≤ seg.text.length) :
    offsetsOk seg.startOffset (splitSegPieces seg idx tlen) := by
  simp only [splitSegPieces]
  split <;> split
  all_goals rename_i hb ha
  all_goals try (have hbn := congrArg List.length (List.isEmpty_iff.mp hb))
  all_goals try (have han := congrArg List.length (List.isEmpty_iff.mp ha))
  all_goals try simp only [List.length_take, List.length_drop, List.length_nil] at *
  all_goals simp only [List.nil_append, List.append_nil, List.cons_append,
    List.singleton_append, offsetsOk, and_true]
  all_goals try simp only [List.length_take, List.length_drop, true_and, and_true]
  all_goals omega

theorem splitSegPieces_boldOk {mid : Nat} (seg : Seg) (idx tlen : Nat)
    (hmid : seg.startOffset + idx < mid) :
    ∀ s ∈ splitSegPieces seg idx tlen, s.bold = true → s.startOffset < mid := by
  intro s hs hb
  simp only [splitSegPieces] at hs
  rcases List.mem_append.mp hs with h1 | h1
  · rcases List.mem_append.mp h1 with h2 | h2
    · split at h2
      · cases h2
      · simp at h2
        rw [h2] at hb
        cases hb
    · simp at h2
      rw [h2]
      simpa using hmid
  · split at h1
    · cases h1
    · simp at h1
      rw [h1] at hb
      cases hb

theorem idxOf?_lower_bound {term : List Char} {seg : Seg} {idx : Nat}
    (h : idxOf? (lowerList term) (lowerList seg.text) = some idx) :
    idx + term.length ≤ seg.text.length := by
  obtain ⟨hle, hpre⟩ := idxOf?_spec h
  have h1 : (lowerList term).length ≤ ((lowerList seg.text).drop idx).length := hpre.length_le
  simp only [lowerList, List.length_map, List.length_drop] at h1 hle
  omega

theorem processTerm_true (term : List Char) (mid : Nat) :
    ∀ segs : List Seg, processTerm term mid true segs = (segs, true) := by
  intro segs
  induction segs with
  | nil => rfl
  | cons seg rest ih => simp [processTerm, ih]

theorem processTerm_concat (term : List Char) (mid : Nat) :
    ∀ (segs : List Seg) (d : Bool),
      concatTexts (processTerm term mid d segs).1 = concatTexts segs := by
  intro segs
  induction segs with
  | nil => intro d; rfl
  | cons seg rest ih =>
    intro d
    simp only [processTerm]
    split
    · rw [concatTexts_cons, concatTexts_cons, ih d]
    · split
      · rw [concatTexts_cons, concatTexts_cons, ih d]
      · split
        · rw [concatTexts_cons, concatTexts_cons, ih d]
        · rw [concatTexts_append, splitSegPieces_concat, ih true, concatTexts_cons]

theorem processTerm_countBold (term : List Char) (mid : Nat) :
    ∀ segs : List Seg,
      countBold (processTerm term mid false segs).1 =
        countBold segs + (if (processTerm term mid false segs).2 then 1 else 0) := by
  intro segs
  induction segs with
  | nil => rfl
  | cons seg rest ih =>
    simp only [processTerm]
    split
    · dsimp only
      rw [countBold_cons, countBold_cons, ih]
      omega
    · split
      · dsimp only
        rw [countBold_cons, countBold_cons, ih]
        omega
      · split
        · dsimp only
          rw [countBold_cons, countBold_cons, ih]
          omega
        · rename_i hbold hscrut idx hfind hmid
          simp only [Bool.or_false] at hbold
          have hb : seg.bold = false := by
            cases hsb : seg.bold
            · rfl
            · exact absurd hsb hbold
          rw [processTerm_true]
          dsimp only
          rw [countBold_append, splitSegPieces_countBold, countBold_cons, hb]
          simp
          try omega

theorem processTerm_offsetsOk (term : List Char) (mid : Nat) :
    ∀ (segs : List Seg) (d : Bool) (n : Nat),
      offsetsOk n segs → offsetsOk n (processTerm term mid d segs).1 := by
  intro segs
  induction segs with
  | nil => intro d n h; exact h
  | cons seg rest ih =>
    intro d n h
    obtain ⟨h1, h2⟩ := h
    simp only [processTerm]
    split
    · exact ⟨h1, ih d (n + seg.text.length) h2⟩
    · split
      · exact ⟨h1, ih d (n + seg.text.length) h2⟩
      · split
        · exact ⟨h1, ih d (n + seg.text.length) h2⟩
        · rename_i hbold hscrut idx hfind hmid
          have hlen := idxOf?_lower_bound hfind
          refine offsetsOk_append.mpr ⟨?_, ?_⟩
          · exact h1 ▸ splitSegPieces_offsetsOk seg idx term.length hlen
          · rw [splitSegPieces_sumLens seg idx term.length hlen]
            exact ih true (n + seg.text.length) h2

theorem processTerm_boldOk (term : List Char) (mid : Nat) :
    ∀ (segs : List Seg) (d : Bool),
      boldOk mid segs → boldOk mid (processTerm term mid d segs).1 := by
  intro segs
  induction segs with
  | nil => intro d h; exact h
  | cons seg rest ih =>
    intro d h
    have hhead : seg.bold = true → seg.startOffset < mid :=
      h seg (List.mem_cons_self seg rest)
    have hrest : boldOk mid rest := fun s hs hb => h s (List.mem_cons_of_mem seg hs) hb
    simp only [processTerm]
    split
    · intro s hs hb
      rcases List.mem_cons.mp hs with h' | h'
      · exact h' ▸ hhead (h' ▸ hb)
      · exact ih d hrest s h' hb
    · split
      · intro s hs hb
        rcases List.mem_cons.mp hs with h' | h'
        · exact h' ▸ hhead (h' ▸ hb)
        · exact ih d hrest s h' hb
      · split
        · intro s hs hb
          rcases List.mem_cons.mp hs with h' | h'
          · exact h' ▸ hhead (h' ▸ hb)
          · exact ih d hrest s h' hb
        · rename_i hbold hscrut idx hfind hmid
          intro s hs hb
          rcases List.mem_append.mp hs with h' | h'
          · exact splitSegPieces_boldOk seg idx term.length (by omega) s h' hb
          · exact ih true hrest s h' hb

theorem applyTerms_concat (mid maxB : Nat) :
    ∀ (terms : List (List Char)) (segs : List Seg) (c : Nat),
      concatTexts (applyTerms mid maxB terms segs c) = concatTexts segs := by
  intro terms
  induction terms with
  | nil => intro segs c; rfl
  | cons term rest ih =>
    intro segs c
    simp only [applyTerms]
    split
    · rfl
    · rw [ih]
      by_cases hr : (processTerm term mid false segs).2 <;>
        simp [hr, processTerm_concat]

theorem applyTerms_offsetsOk (mid maxB : Nat) :
    ∀ (terms : List (List Char)) (segs : List Seg) (c n : Nat),
      offsetsOk n segs → offsetsOk n (applyTerms mid maxB terms segs c) := by
  intro terms
  induction terms with
  | nil => intro segs c n h; exact h
  | cons term rest ih =>
    intro segs c n h
    simp only [applyTerms]
    split
    · exact h
    · apply ih
      by_cases hr : (processTerm term mid false segs).2
      · simpa [hr] using processTerm_offsetsOk term mid segs false n h
      · simpa [hr] using h

theorem applyTerms_boldOk (mid maxB : Nat) :
    ∀ (terms : List (List Char)) (segs : List Seg) (c : Nat),
      boldOk mid segs → boldOk mid (applyTerms mid maxB terms segs c) := by
  intro terms
  induction terms with
  | nil => intro segs c h; exact h
  | cons term rest ih =>
    intro segs c h
    simp only [applyTerms]
    split
    · exact h
    · apply ih
      by_cases hr : (processTerm term mid false segs).2
      · simpa [hr] using processTerm_boldOk term mid segs false h
      · simpa [hr] using h

theorem applyTerms_countBold (mid maxB : Nat) :
    ∀ (terms : List (List Char)) (segs : List Seg) (c : Nat),
      countBold segs = c →
      countBold (applyTerms mid maxB terms segs c) ≤ max c maxB := by
  intro terms
  induction terms with
  | nil =>
    intro segs c h
    rw [applyTerms, h]
    exact Nat.le_max_left c maxB
  | cons term rest ih =>
    intro segs c h
    simp only [applyTerms]
    split
    · exact h ▸ Nat.le_max_left (countBold segs) maxB
    · rename_i hlt
      have hcb := processTerm_countBold term mid segs
      by_cases hr : (processTerm term mid false segs).2
      · have hc' : countBold (processTerm term mid false segs).1 = c + 1 := by
          rw [hcb, h, hr]
          simp
        have := ih (processTerm term mid false segs).1 (c + 1) hc'
        simp only [hr, if_true] at *
        refine le_trans this ?_
        have : max (c + 1) maxB = maxB := by omega
        rw [this]
        exact Nat.le_max_right c maxB
      · have hc' : countBold segs = c := h
        have := ih segs c hc'
        simp only [hr] at *
        simpa using this

theorem offsetsOk_get :
    ∀ (segs : List Seg) (n : Nat), offsetsOk n segs →
      ∀ (i : Nat) (h : i < segs.length),
        (segs.get ⟨i, h⟩).startOffset = n + sumLens (segs.take i) := by
  intro segs
  induction segs with
  | nil => intro n _ i h; cases h
  | cons seg rest ih =>
    intro n hok i h
    obtain ⟨h1, h2⟩ := hok
    match i with
    | 0 => simpa [sumLens] using h1
    | Nat.succ j =>
      have hj : j < rest.length := Nat.lt_of_succ_lt_succ h
      have := ih (n + seg.text.length) h2 j hj
      simp only [List.get_cons_succ, List.take_succ_cons] at *
      rw [this]
      simp [sumLens]
      omega

theorem asString_append (a b : List Char) :
    (a ++ b).asString = a.asString ++ b.asString := rfl

theorem length_asString (l : List Char) : l.asString.length = l.length := rfl

theorem spans_concat (segs : List Seg) :
    ((segs.map (fun s => (⟨s.text.asString, s.bold⟩ : Span))).map Span.text).foldr
        (· ++ ·) "" = (concatTexts segs).asString := by
  induction segs with
  | nil => rfl
  | cons s rest ih =>
    simp only [List.map_cons, List.foldr_cons, ih, concatTexts_cons, asString_append]

theorem spans_filter_bold (segs : List Seg) :
    ((segs.map (fun s => (⟨s.text.asString, s.bold⟩ : Span))).filter
        (fun sp => sp.bold)).length = countBold segs := by
  induction segs with
  | nil => rfl
  | cons s rest ih =>
    by_cases hb : s.bold <;>
      · simp [List.filter_cons, hb, countBold_cons, ih]
        try omega

theorem spans_take_sum (segs : List Seg) (i : Nat) :
    (((segs.map (fun s => (⟨s.text.asString, s.bold⟩ : Span))).take i).map
        (fun sp => sp.text.length)).sum = sumLens (segs.take i) := by
  rw [← List.map_take, List.map_map]
  rfl

theorem initSeg_invariants (tl : List Char) (terms : List (List Char)) (maxB : Nat) :
    concatTexts (applyTerms (tl.length / 2) maxB terms [⟨tl, false, 0⟩] 0) = tl ∧
    countBold (applyTerms (tl.length / 2) maxB terms [⟨tl, false, 0⟩] 0) ≤ maxB ∧
    offsetsOk 0 (applyTerms (tl.length / 2) maxB terms [⟨tl, false, 0⟩] 0) ∧
    boldOk (tl.length / 2) (applyTerms (tl.length / 2) maxB terms [⟨tl, false, 0⟩] 0) := by
  refine ⟨?_, ?_, ?_, ?_⟩
  · rw [applyTerms_concat]
    simp [concatTexts]
  · have := applyTerms_countBold (tl.length / 2) maxB terms [⟨tl, false, 0⟩] 0
      (by simp [countBold])
    simpa using this
  · exact applyTerms_offsetsOk _ _ _ _ _ _ (by simp [offsetsOk])
  · refine applyTerms_boldOk _ _ _ _ _ ?_
    intro s hs hb
    simp at hs
    rw [hs] at hb
    cases hb

theorem spans_invariant_of (tl : List Char) (maxB : Nat) (segs : List Seg)
    (spans : List Span)
    (hspans : spans = segs.map (fun s => ⟨s.text.asString, s.bold⟩))
    (hcat : concatTexts segs = tl) (hcnt : countBold segs ≤ maxB)
    (hoff : offsetsOk 0 segs) (hmidp : boldOk (tl.length / 2) segs) :
    (spans.map Span.text).foldr (· ++ ·) "" = tl.asString ∧
    (spans.filter (fun sp => sp.bold)).length ≤ maxB ∧
    ∀ (i : Nat) (h : i < spans.length), (spans.get ⟨i, h⟩).bold = true →
      ((spans.take i).map (fun sp => sp.text.length)).sum < tl.length / 2 := by
  subst hspans
  refine ⟨?_, ?_, ?_⟩
  · rw [spans_concat, hcat]
  · rw [spans_filter_bold]
    exact hcnt
  · intro i h hb
    have hlen : i < segs.length := by simpa using h
    have hgetb : (segs.get ⟨i, hlen⟩).bold = true := by
      rw [List.get_eq_getElem] at hb ⊢
      rw [List.getElem_map] at hb
      exact hb
    have hso := offsetsOk_get segs 0 hoff i hlen
    have hstart := hmidp _ (List.get_mem segs i hlen) hgetb
    rw [hso] at hstart
    rw [spans_take_sum]
    simpa using hstart

/-- C1: for every bulletText and matchedKeywords (and any maxBolds), the
spans returned by splitBulletWithBolds concatenate, in order, to exactly the
original text; at most maxBolds spans are emphasized; and every emphasized
span's starting character offset (the total length of the spans before it)
is strictly below floor(length(bulletText) / 2). -/
theorem splitBullet_emphasis_invariant (t : String) (kws : List String) (maxB : Nat) :
    ((splitBulletWithBolds (some t) kws maxB).map Span.text).foldr (· ++ ·) "" = t ∧
    ((splitBulletWithBolds (some t) kws maxB).filter (fun sp => sp.bold)).length ≤ maxB ∧
    ∀ (i : Nat) (h : i < (splitBulletWithBolds (some t) kws maxB).length),
      ((splitBulletWithBolds (some t) kws maxB).get ⟨i, h⟩).bold = true →
      (((splitBulletWithBolds (some t) kws maxB).take i).map
          (fun sp => sp.text.length)).sum < t.length / 2 := by
  by_cases h1 : t.toList.isEmpty
  · have ht : t = "" := by
      cases t with
      | mk d =>
        have hd : d = [] := List.isEmpty_iff.mp h1
        rw [hd]
    subst ht
    refine spans_invariant_of [] maxB [⟨[], false, 0⟩] _ rfl (by simp [concatTexts])
      (by simp [countBold]) ⟨rfl, trivial⟩ ?_
    intro s hs hb
    simp at hs
    rw [hs] at hb
    cases hb
  · by_cases h2 : SKIP_LEADERSHIP_STARTS.any
      (fun p => decide (p.toList <+: trimList t.toList))
    · have hval : splitBulletWithBolds (some t) kws maxB = [⟨t, false⟩] := by
        unfold splitBulletWithBolds
        simp only [Option.getD_some, h1, h2]
        rfl
      have hone : ([⟨t, false⟩] : List Span) =
          ([⟨t.toList, false, 0⟩] : List Seg).map
            (fun s => ⟨s.text.asString, s.bold⟩) := rfl
      refine spans_invariant_of t.toList maxB [⟨t.toList, false, 0⟩] _
        (hval.trans hone) (by simp [concatTexts]) (by simp [countBold]) ⟨rfl, trivial⟩ ?_
      intro s hs hb
      simp at hs
      rw [hs] at hb
      cases hb
    · have hval : splitBulletWithBolds (some t) kws maxB =
          (applyTerms (t.toList.length / 2) maxB (sortLenDesc (termsToCheck kws))
            [⟨t.toList, false, 0⟩] 0).map (fun s => ⟨s.text.asString, s.bold⟩) := by
        unfold splitBulletWithBolds
        simp only [Option.getD_some, h1, h2]
        rfl
      obtain ⟨hcat, hcnt, hoff, hmidp⟩ :=
        initSeg_invariants t.toList (sortLenDesc (termsToCheck kws)) maxB
      exact spans_invariant_of t.toList maxB _ _ hval hcat hcnt hoff hmidp

theorem trimList_preserves_lead {p l : List Char} (hne : p ≠ [])
    (hh : ∀ c, p.head? = some c → isJsWS c = false)
    (hl : ∀ c, p.getLast? = some c → isJsWS c = false)
    (hpre : p <+: l) : p <+: trimList l := by
  obtain ⟨r, rfl⟩ := hpre
  match p, hne with
  | c :: p', _ =>
    have hc : isJsWS c = false := hh c rfl
    unfold trimList
    have hstep1 : (c :: p' ++ r).dropWhile isJsWS = c :: p' ++ r := by
      simp [List.dropWhile_cons, hc]
    rw [hstep1]
    have hrev : (c :: p' ++ r).reverse = r.reverse ++ (c :: p').reverse := by
      simp
    rw [hrev]
    have hlast : ∀ d, (c :: p').reverse.head? = some d → isJsWS d = false := by
      intro d hd
      rw [List.head?_reverse] at hd
      exact hl d hd
    rw [List.dropWhile_append]
    split
    · match hrv : (c :: p').reverse, (by simp : (c :: p').reverse ≠ []) with
      | d :: q, _ =>
        have hd : isJsWS d = false := hlast d (by rw [hrv]; rfl)
        rw [List.dropWhile_cons, hd]
        have hqr : (d :: q).reverse = c :: p' := by
          rw [← hrv, List.reverse_reverse]
        simp only [Bool.false_eq_true, if_false, hqr]
        exact List.prefix_refl _
    · rw [List.reverse_append, List.reverse_reverse]
      exact List.prefix_append (c :: p') _

theorem skip_starts_wellformed :
    SKIP_LEADERSHIP_STARTS.all (fun p =>
      !p.toList.isEmpty && !isJsWS (p.toList.headD 'a') &&
        !isJsWS (p.toList.getLastD 'a')) = true := by decide

/-- C2: a bulletText beginning with one of the configured soft/leadership
lead-in phrases is exempt from emphasis: splitBulletWithBolds returns
exactly one non-emphasized span holding the full original text, whatever
the matchedKeywords. -/
theorem splitBullet_soft_lead (t : String) (kws : List String)
    (h : ∃ p ∈ SKIP_LEADERSHIP_STARTS, p.toList <+: t.toList) :
    splitBulletWithBolds (some t) kws = [⟨t, false⟩] := by
  obtain ⟨p, hmem, hpre⟩ := h
  have hwf := List.all_eq_true.mp skip_starts_wellformed p hmem
  simp only [Bool.and_eq_true, Bool.not_eq_true'] at hwf
  obtain ⟨⟨hne, hhead⟩, hlast⟩ := hwf
  have hne' : p.toList ≠ [] := by
    intro hc
    rw [hc] at hne
    cases hne
  have htrim : p.toList <+: trimList t.toList := by
    refine trimList_preserves_lead hne' ?_ ?_ hpre
    · intro c hc
      match hp : p.toList, hne' with
      | d :: q, _ =>
        rw [hp] at hc
        cases hc
        rw [hp] at hhead
        simpa using hhead
    · intro c hc
      have : p.toList.getLastD 'a' = c := by
        rw [List.getLastD_eq_getLast?, hc]
        rfl
      rw [← this]
      exact hlast
  have hemp : t.toList.isEmpty = false := by
    match hp : p.toList, hne' with
    | d :: q, _ =>
      rw [hp] at hpre
      obtain ⟨r, hr⟩ := hpre
      rw [← hr]
      rfl
  have hany : (SKIP_LEADERSHIP_STARTS.any
      (fun q => decide (q.toList <+: trimList t.toList))) = true := by
    rw [List.any_eq_true]
    exact ⟨p, hmem, by simpa using htrim⟩
  unfold splitBulletWithBolds
  simp only [Option.getD_some, hemp, Bool.false_eq_true, if_false, hany, if_true]

/-- Witness for C2 at the spec's own example. -/
theorem splitBullet_soft_lead_witness :
    splitBulletWithBolds (some "Collaborated with the data team to improve reporting")
      ["Python"] = [⟨"Collaborated with the data team to improve reporting", false⟩] :=
  splitBullet_soft_lead "Collaborated with the data team to improve reporting"
    ["Python"] ⟨"Collaborated", by decide, by decide⟩

/-- C8: splitBulletWithBolds is deterministic: two calls with equal
bulletText, equal matchedKeywords and equal maxBolds return the identical
span partition. -/
theorem splitBullet_deterministic (t t' : Option String) (kws kws' : List String)
    (m m' : Nat) (ht : t = t') (hk : kws = kws') (hm : m = m') :
    splitBulletWithBolds t kws m = splitBulletWithBolds t' kws' m' := by
  subst ht
  subst hk
  subst hm
  rfl

/-- Witness for C8 at a concrete repeated call. -/
theorem splitBullet_deterministic_witness :
    splitBulletWithBolds (some "Automated ETL checks") ["ETL"] 2 =
      splitBulletWithBolds (some "Automated ETL checks") ["ETL"] 2 :=
  splitBullet_deterministic (some "Automated ETL checks") (some "Automated ETL checks")
    ["ETL"] ["ETL"] 2 2 rfl rfl rfl

/-- C9: a JS-falsy bulletText (null, undefined, or the empty string) makes
splitBulletWithBolds return exactly one non-emphasized span whose text is
the empty string, for any matchedKeywords and maxBolds. -/
theorem splitBullet_empty_input (text : Option String) (kws : List String) (m : Nat)
    (h : text = none ∨ text = some "") :
    splitBulletWithBolds text kws m = [⟨"", false⟩] := by
  rcases h with h | h <;> subst h <;> rfl

/-- Witness for C9 at the null input. -/
theorem splitBullet_empty_input_witness :
    splitBulletWithBolds none ["Python"] 2 = [⟨"", false⟩] :=
  splitBullet_empty_input none ["Python"] 2 (Or.inl rfl)

/-- C3: buildProjects renders, in order, exactly the first three projects
when is_cv is false (so five supplied projects render as the first three),
and every project unfiltered in original order when is_cv is true. -/
theorem buildProjects_cap (projects : List Project) :
    buildProjects projects false = (projects.take 3).map renderProject ∧
    buildProjects projects true = projects.map renderProject := by
  constructor <;>
    · unfold buildProjects
      by_cases h : projects.isEmpty
      · rw [List.isEmpty_iff.mp h]
        simp
      · simp [h]

/-- Witness for C3: five projects, resume mode keeps the first three in
order and CV mode keeps all five. -/
theorem buildProjects_cap_witness :
    (buildProjects [⟨"P1", none, []⟩, ⟨"P2", none, []⟩, ⟨"P3", none, []⟩,
        ⟨"P4", none, []⟩, ⟨"P5", none, []⟩] false).map ProjectBlock.name =
      ["P1", "P2", "P3"] ∧
    (buildProjects [⟨"P1", none, []⟩, ⟨"P2", none, []⟩, ⟨"P3", none, []⟩,
        ⟨"P4", none, []⟩, ⟨"P5", none, []⟩] true).map ProjectBlock.name =
      ["P1", "P2", "P3", "P4", "P5"] := by
  have h := buildProjects_cap [⟨"P1", none, []⟩, ⟨"P2", none, []⟩, ⟨"P3", none, []⟩,
    ⟨"P4", none, []⟩, ⟨"P5", none, []⟩]
  constructor
  · rw [h.1]
    rfl
  · rw [h.2]
    rfl

theorem splitOnDash_no_dash (l : List Char) (h : '-' ∉ l) : splitOnDash l = [l] := by
  induction l with
  | nil => rfl
  | cons c t ih =>
    have hc : ¬ c = '-' := fun hcc => h (hcc ▸ List.mem_cons_self c t)
    have ht : '-' ∉ t := fun htt => h (List.mem_cons_of_mem c htt)
    unfold splitOnDash
    rw [if_neg hc, ih ht]

theorem splitOnDash_append (y rest : List Char) (h : '-' ∉ y) :
    splitOnDash (y ++ '-' :: rest) = y :: splitOnDash rest := by
  induction y with
  | nil =>
    have hstep : splitOnDash ('-' :: rest) = [] :: splitOnDash rest := by
      rw [splitOnDash]
      simp
    simpa using hstep
  | cons c t ih =>
    have hc : ¬ c = '-' := fun hcc => h (hcc ▸ List.mem_cons_self c t)
    have ht : '-' ∉ t := fun htt => h (List.mem_cons_of_mem c htt)
    rw [List.cons_append, splitOnDash, if_neg hc, ih ht]

theorem formatDate_unparseable (s : String) (hs : s.toList.isEmpty = false)
    (hpf : formatParseFails s) : formatDate (some s) = s := by
  unfold formatDate
  simp only [Option.getD_some, hs, Bool.false_eq_true, if_false]
  cases hsp : splitOnDash s.toList with
  | nil => rfl
  | cons y rest1 =>
    cases rest1 with
    | nil => rfl
    | cons mp rest2 =>
      dsimp only
      cases hpi : jsParseInt mp with
      | none => rfl
      | some k =>
        have hk := hpf y mp rest2 hsp k hpi
        have hcond : ¬(0 ≤ k - 1 ∧ k - 1 < 12) := by omega
        dsimp only
        rw [if_neg hcond]

theorem formatDate_month (s : String) (y mp : List Char) (rest : List (List Char))
    (k : Int) (hsp : splitOnDash s.toList = y :: mp :: rest)
    (hpi : jsParseInt mp = some k) (h1 : 1 ≤ k) (h12 : k ≤ 12) :
    formatDate (some s) = MONTHS.getD (k - 1).toNat "" ++ " " ++ y.asString := by
  have hs : s.toList.isEmpty = false := by
    cases hl : s.toList with
    | nil =>
      rw [hl] at hsp
      simp [splitOnDash] at hsp
    | cons c t => rfl
  unfold formatDate
  simp only [Option.getD_some, hs, Bool.false_eq_true, if_false, hsp]
  try dsimp only
  rw [hpi]
  try dsimp only
  rw [if_pos ⟨by omega, by omega⟩]

/-- C4: formatDate renders a dash-separated date whose second component
parses to a month 1..12 as "MonthAbbrev Year"; a null date renders as
"Present"; a non-empty unparseable string passes through unchanged; and an
experience entry with start 2022-03 and no end date renders the range
"Mar 2022 – Present". -/
theorem formatDate_contract :
    (∀ (y mp : List Char) (k : Int), '-' ∉ y → '-' ∉ mp →
        jsParseInt mp = some k → 1 ≤ k → k ≤ 12 →
        formatDate (some (y ++ '-' :: mp).asString) =
          MONTHS.getD (k - 1).toNat "" ++ " " ++ y.asString) ∧
    formatDate none = "Present" ∧
    (∀ s : String, s.toList.isEmpty = false → formatParseFails s →
        formatDate (some s) = s) ∧
    dateRange (some "2022-03") none = "Mar 2022 – Present" := by
  refine ⟨?_, rfl, formatDate_unparseable, by decide⟩
  intro y mp k hy hmp hparse h1 h12
  refine formatDate_month ((y ++ '-' :: mp).asString) y mp [] k ?_ hparse h1 h12
  show splitOnDash (y ++ '-' :: mp) = [y, mp]
  rw [splitOnDash_append y mp hy, splitOnDash_no_dash mp hmp]

/-- Witness for C4: the contract evaluated at "2022-03". -/
theorem formatDate_contract_witness :
    formatDate (some "2022-03") = "Mar 2022" := by
  have h := formatDate_contract.1 "2022".toList "03".toList 3
    (by decide) (by decide) (by decide) (by decide) (by decide)
  simpa using h

/-- C10: formatDate accepts any dash-separated string with two or more
components whose second component parseInt-parses to a month 1..12,
rendering the month abbreviation and the first component while ignoring the
remaining components, so "2022-03-15" renders as "Mar 2022"; any other
non-empty string is returned unchanged. -/
theorem formatDate_lenient :
    (∀ (s : String) (y mp : List Char) (rest : List (List Char)) (k : Int),
        splitOnDash s.toList = y :: mp :: rest →
        jsParseInt mp = some k → 1 ≤ k → k ≤ 12 →
        formatDate (some s) = MONTHS.getD (k - 1).toNat "" ++ " " ++ y.asString) ∧
    (∀ s : String, s.toList.isEmpty = false → formatParseFails s →
        formatDate (some s) = s) ∧
    formatDate (some "2022-03-15") = "Mar 2022" := by
  exact ⟨formatDate_month, formatDate_unparseable, by decide⟩

/-- C6 counterexample: with categories ["Languages", "3"] (in first-seen
order), buildSkills renders the array-index-like category "3" first, so the
rendered category order is not the first-seen order. -/
theorem buildSkills_not_first_seen :
    ((buildSkills [⟨"Python", some "Languages"⟩, ⟨"X", some "3"⟩]).getD []).map
        Prod.fst ≠
      firstSeenCats [⟨"Python", some "Languages"⟩, ⟨"X", some "3"⟩] := by decide

/-- A category naming an Object.prototype member makes the real generator
throw: the witnessing concrete run of the model. -/
theorem buildSkills_proto_crash :
    buildSkills [⟨"X", some "constructor"⟩] = none := by decide

theorem any_fst_beq (l : List String) (g : String → List String) (cat : String) :
    ((l.map (fun c => (c, g c))).any (fun kv => kv.1 == cat)) = l.contains cat := by
  induction l with
  | nil => rfl
  | cons c t ih =>
    simp only [List.map_cons, List.any_cons, List.contains_cons, ih]
    by_cases h : c = cat
    · subst h
      simp
    · have h1 : (c == cat) = false := by
        simpa using h
      have h2 : (cat == c) = false := by
        simpa using fun e => h e.symm
      rw [h1, h2]

theorem firstSeenCats_append_one (done : List Skill) (s : Skill) :
    firstSeenCats (done ++ [s]) =
      if (firstSeenCats done).contains (skillCat s) then firstSeenCats done
      else firstSeenCats done ++ [skillCat s] := by
  unfold firstSeenCats
  rw [List.foldl_append]
  rfl

theorem catNames_append_one (done : List Skill) (s : Skill) (c : String) :
    catNames (done ++ [s]) c =
      catNames done c ++ (if skillCat s = c then [s.name] else []) := by
  unfold catNames
  rw [List.filter_append, List.map_append]
  by_cases h : skillCat s = c <;> simp [List.filter_cons, h]

theorem mem_firstSeenCats_foldl :
    ∀ (l : List Skill) (acc : List String) (c : String), c ∈ acc →
      c ∈ l.foldl
        (fun a s => if a.contains (skillCat s) then a else a ++ [skillCat s]) acc := by
  intro l
  induction l with
  | nil => intro acc c h; exact h
  | cons s rest ih =>
    intro acc c h
    rw [List.foldl_cons]
    apply ih
    by_cases hc : acc.contains (skillCat s)
    · rwa [if_pos hc]
    · rw [if_neg hc]
      exact List.mem_append_left _ h

theorem skillCat_mem_firstSeenCats :
    ∀ (l : List Skill) (acc : List String) (s : Skill), s ∈ l →
      skillCat s ∈ l.foldl
        (fun a s => if a.contains (skillCat s) then a else a ++ [skillCat s]) acc := by
  intro l
  induction l with
  | nil => intro acc s h; cases h
  | cons hd rest ih =>
    intro acc s h
    rw [List.foldl_cons]
    rcases List.mem_cons.mp h with h' | h'
    · subst h'
      apply mem_firstSeenCats_foldl
      by_cases hc : acc.contains (skillCat s)
      · rw [if_pos hc]
        exact List.elem_iff.mp hc
      · rw [if_neg hc]
        exact List.mem_append_right _ (List.mem_singleton.mpr rfl)
    · exact ih _ s h'

theorem catNames_eq_nil_of_not_mem (done : List Skill) (c : String)
    (h : c ∉ firstSeenCats done) : catNames done c = [] := by
  unfold catNames
  simp only [List.map_eq_nil_iff, List.filter_eq_nil_iff]
  intro s hs hc
  simp only [decide_eq_true_eq] at hc
  exact h (hc ▸ skillCat_mem_firstSeenCats done [] s hs)

theorem pushCat_grouping_seen (done : List Skill) (s : Skill)
    (h : skillCat s ∈ firstSeenCats done) :
    pushCat (firstSeenGrouping done) (skillCat s) s.name =
      firstSeenGrouping (done ++ [s]) := by
  unfold pushCat firstSeenGrouping
  rw [firstSeenCats_append_one, if_pos (List.elem_iff.mpr h), List.map_map]
  apply List.map_congr_left
  intro c hc
  by_cases hcc : c = skillCat s
  · subst hcc
    simp [catNames_append_one]
  · have hss : ¬ skillCat s = c := fun e => hcc e.symm
    simp [hcc, hss, catNames_append_one]

theorem pushCat_grouping_new (done : List Skill) (s : Skill)
    (h : skillCat s ∉ firstSeenCats done) :
    pushCat (firstSeenGrouping done ++ [(skillCat s, [])]) (skillCat s) s.name =
      firstSeenGrouping (done ++ [s]) := by
  unfold pushCat firstSeenGrouping
  rw [List.map_append, List.map_map, firstSeenCats_append_one,
    if_neg (fun hc => h (List.elem_iff.mp hc)), List.map_append]
  congr 1
  · apply List.map_congr_left
    intro c hc
    have hcc : ¬ c = skillCat s := fun e => h (e ▸ hc)
    have hss : ¬ skillCat s = c := fun e => hcc e.symm
    simp [hcc, hss, catNames_append_one]
  · simp [catNames_append_one, catNames_eq_nil_of_not_mem done _ h]

theorem groupByCategory_spec :
    ∀ (skills done : List Skill),
      (∀ s ∈ skills, OBJECT_PROTOTYPE_KEYS.contains (skillCat s) = false) →
      groupByCategory skills (firstSeenGrouping done) =
        some (firstSeenGrouping (done ++ skills)) := by
  intro skills
  induction skills with
  | nil =>
    intro done h
    rw [List.append_nil]
    rfl
  | cons s rest ih =>
    intro done h
    have hs := h s (List.mem_cons_self s rest)
    have hrest : ∀ x ∈ rest, OBJECT_PROTOTYPE_KEYS.contains (skillCat x) = false :=
      fun x hx => h x (List.mem_cons_of_mem s hx)
    have hown : ((firstSeenGrouping done).any (fun kv => kv.1 == skillCat s)) =
        (firstSeenCats done).contains (skillCat s) := by
      unfold firstSeenGrouping
      exact any_fst_beq (firstSeenCats done) (catNames done) (skillCat s)
    have htruthy : byCategoryTruthy (firstSeenGrouping done) (skillCat s) =
        (firstSeenCats done).contains (skillCat s) := by
      unfold byCategoryTruthy
      rw [hown, hs, Bool.or_false]
    simp only [groupByCategory]
    by_cases hc : (firstSeenCats done).contains (skillCat s)
    · have ht : byCategoryTruthy (firstSeenGrouping done) (skillCat s) = true :=
        htruthy.trans hc
      rw [if_pos ht]
      have ha : ((firstSeenGrouping done).any (fun kv => kv.1 == skillCat s)) = true :=
        hown.trans hc
      rw [if_pos ha, pushCat_grouping_seen done s (List.elem_iff.mp hc),
        ih (done ++ [s]) hrest, List.append_assoc]
      rfl
    · have hc' : (firstSeenCats done).contains (skillCat s) = false := by
        simpa using hc
      have ht : ¬ (byCategoryTruthy (firstSeenGrouping done) (skillCat s) = true) := by
        rw [htruthy, hc']
        exact Bool.false_ne_true
      rw [if_neg ht]
      have ha : ((firstSeenGrouping done ++ [(skillCat s, [])]).any
          (fun kv => kv.1 == skillCat s)) = true := by
        rw [List.any_append]
        simp
      rw [if_pos ha, pushCat_grouping_new done s (fun hm => hc (List.elem_iff.mpr hm)),
        ih (done ++ [s]) hrest, List.append_assoc]
      rfl

/-- Skills whose categories avoid Object.prototype member names keep keys
of pushCat outputs proto-free: fst is preserved by pushCat. -/
theorem pushCat_fst_mem {acc : List (String × List String)} {cat name : String}
    {kv : String × List String} (h : kv ∈ pushCat acc cat name) :
    ∃ kv0 ∈ acc, kv.1 = kv0.1 := by
  obtain ⟨kv0, hkv0, hkveq⟩ := List.mem_map.mp h
  refine ⟨kv0, hkv0, ?_⟩
  rw [← hkveq]
  by_cases hk : kv0.1 = cat <;> simp [hk]

/-- A category naming an Object.prototype member makes the grouping loop
throw (none): the guard sees the inherited truthy member, skips
initialization, and push is called on a non-array. -/
theorem groupByCategory_throws :
    ∀ (skills : List Skill) (acc : List (String × List String)),
      (∀ kv ∈ acc, OBJECT_PROTOTYPE_KEYS.contains kv.1 = false) →
      (∃ s ∈ skills, OBJECT_PROTOTYPE_KEYS.contains (skillCat s) = true) →
      groupByCategory skills acc = none := by
  intro skills
  induction skills with
  | nil =>
    intro acc hacc hex
    obtain ⟨s, hs, _⟩ := hex
    cases hs
  | cons s rest ih =>
    intro acc hacc hex
    simp only [groupByCategory]
    by_cases hp : OBJECT_PROTOTYPE_KEYS.contains (skillCat s)
    · have ht : byCategoryTruthy acc (skillCat s) = true := by
        unfold byCategoryTruthy
        rw [hp, Bool.or_true]
      rw [if_pos ht]
      have hnone : (acc.any (fun kv => kv.1 == skillCat s)) = false := by
        rw [List.any_eq_false]
        intro kv hkv he
        have hbe : kv.1 = skillCat s := by simpa using he
        have hx := hacc kv hkv
        rw [hbe] at hx
        rw [hx] at hp
        cases hp
      have hnone' : ¬ ((acc.any (fun kv => kv.1 == skillCat s)) = true) := by
        rw [hnone]
        exact Bool.false_ne_true
      rw [if_neg hnone']
    · have hp' : OBJECT_PROTOTYPE_KEYS.contains (skillCat s) = false := by
        simpa using hp
      have hex' : ∃ x ∈ rest, OBJECT_PROTOTYPE_KEYS.contains (skillCat x) = true := by
        obtain ⟨x, hx, hxp⟩ := hex
        rcases List.mem_cons.mp hx with h' | h'
        · rw [h', hp'] at hxp
          cases hxp
        · exact ⟨x, h', hxp⟩
      by_cases ht : byCategoryTruthy acc (skillCat s)
      · rw [if_pos ht]
        by_cases ha : (acc.any (fun kv => kv.1 == skillCat s))
        · rw [if_pos ha]
          apply ih
          · intro kv hkv
            obtain ⟨kv0, hkv0, hfst⟩ := pushCat_fst_mem hkv
            rw [hfst]
            exact hacc kv0 hkv0
          · exact hex'
        · rw [if_neg ha]
      · rw [if_neg ht]
        by_cases ha : ((acc ++ [(skillCat s, [])]).any (fun kv => kv.1 == skillCat s))
        · rw [if_pos ha]
          apply ih
          · intro kv hkv
            obtain ⟨kv0, hkv0, hfst⟩ := pushCat_fst_mem hkv
            rw [hfst]
            rcases List.mem_append.mp hkv0 with h1 | h1
            · exact hacc kv0 h1
            · have h2 : kv0 = (skillCat s, []) := by simpa using h1
              rw [h2]
              exact hp'
          · exact hex'
        · rw [if_neg ha]

/-- C6 (amended): buildSkills groups names by category with names in input
order, and the rendered categories appear in first-seen order whenever no
category string is a JS array-index string (canonical integer below
2^32 - 1) and no category names an Object.prototype member; array-index
categories are instead hoisted to the front in ascending numeric order by
Object.entries, and an Object.prototype-colliding category makes the
generator throw instead of rendering. -/
theorem buildSkills_first_seen_amended (skills : List Skill)
    (hidx : ∀ c ∈ firstSeenCats skills, isArrayIndexStr c = false)
    (hproto : ∀ s ∈ skills, OBJECT_PROTOTYPE_KEYS.contains (skillCat s) = false) :
    buildSkills skills = some (firstSeenGrouping skills) := by
  unfold buildSkills
  by_cases he : skills.isEmpty
  · rw [if_pos he, List.isEmpty_iff.mp he]
    rfl
  · rw [if_neg he]
    have hgrp := groupByCategory_spec skills [] hproto
    have h0 : firstSeenGrouping ([] : List Skill) = [] := rfl
    rw [h0, List.nil_append] at hgrp
    rw [hgrp]
    show some (jsEntriesOrder (firstSeenGrouping skills)) = _
    unfold jsEntriesOrder
    have h1 : (firstSeenGrouping skills).filter (fun kv => isArrayIndexStr kv.1) = [] := by
      rw [List.filter_eq_nil_iff]
      intro kv hkv
      unfold firstSeenGrouping at hkv
      obtain ⟨c, hc, hkveq⟩ := List.mem_map.mp hkv
      rw [← hkveq]
      simp [hidx c hc]
    have h2 : (firstSeenGrouping skills).filter (fun kv => !isArrayIndexStr kv.1) =
        firstSeenGrouping skills := by
      rw [List.filter_eq_self]
      intro kv hkv
      unfold firstSeenGrouping at hkv
      obtain ⟨c, hc, hkveq⟩ := List.mem_map.mp hkv
      rw [← hkveq]
      simp [hidx c hc]
    rw [h1, h2]
    rfl

/-- Witness for C6's amended theorem: two ordinary categories stay in
first-seen order with names in input order. -/
theorem buildSkills_first_seen_amended_witness :
    buildSkills [⟨"Python", some "Languages"⟩, ⟨"Tableau", some "Tools"⟩,
        ⟨"SQL", some "Languages"⟩] =
      some [("Languages", ["Python", "SQL"]), ("Tools", ["Tableau"])] := by
  have h := buildSkills_first_seen_amended
    [⟨"Python", some "Languages"⟩, ⟨"Tableau", some "Tools"⟩, ⟨"SQL", some "Languages"⟩]
    (by decide) (by decide)
  rw [h]
  decide

theorem specPresent_cons (o : Option String) (l : List (Option String)) :
    specPresent (o :: l) =
      (if jsTruthy o then [optVal o] else []) ++ specPresent l := by
  cases o with
  | none =>
    simp [specPresent, jsTruthy, optVal]
    decide
  | some v =>
    by_cases hv : v.isEmpty <;>
      simp [specPresent, jsTruthy, optVal, hv]

theorem specPresent_nil : specPresent [] = [] := rfl

theorem contactParts_eq_specPresent (p : Personal) :
    contactParts p = specPresent [p.location, p.phone, p.email] := by
  rw [specPresent_cons, specPresent_cons, specPresent_cons, specPresent_nil]
  unfold contactParts
  simp

theorem linkTexts_eq_specPresent (p : Personal) :
    linkTexts p = specPresent [p.linkedin, p.github, p.portfolio] := by
  rw [specPresent_cons, specPresent_cons, specPresent_cons, specPresent_nil]
  unfold linkTexts
  simp

/-- C7: missing optional fields are omitted from the rendered output
entirely and never replaced by placeholder text: the header's contact and
link lines join exactly the present fields (and disappear when no field is
present), and an education entry's lines are built from exactly the present
optional fields. -/
theorem optional_fields_omitted (p : Personal) (e : Education) :
    buildHeaderText p = specHeaderText p ∧ buildEducationLines e = specEduLines e := by
  constructor
  · unfold buildHeaderText specHeaderText
    rw [← contactParts_eq_specPresent, ← linkTexts_eq_specPresent]
    cases hc : contactParts p <;> cases hl : linkTexts p <;> simp
  · unfold buildEducationLines specEduLines eduLine1 eduLine2
    simp only [List.cons.injEq, and_true]
    constructor
    · unfold eduRight
      have hgpa : (if jsTruthy e.gpa then ["GPA: " ++ optVal e.gpa] else []) =
          (match e.gpa with
           | none => []
           | some g => if g.isEmpty then [] else ["GPA: " ++ g]) := by
        cases e.gpa with
        | none => rfl
        | some g =>
          by_cases hg : g.isEmpty <;> simp [jsTruthy, optVal, hg]
      rw [← hgpa]
      cases hval : (if jsTruthy e.end_date then [formatDate e.end_date] else []) ++
          (if jsTruthy e.gpa then ["GPA: " ++ optVal e.gpa] else []) with
      | nil => simp
      | cons a l2 => simp
    · rw [specPresent_cons, specPresent_nil]
      simp

/-- C5 counterexample: on an initially empty file system, generating a
two-character document whose write fails after one character exits
non-zero (the failure is propagated) but leaves a partial one-character
file in place at the output path, contradicting the no-partial-output
claim. -/
theorem generateResume_partial_file_left :
    (runCLI "AB" "out.docx" (fun _ => none) (.failAfter 1)).2 = 1 ∧
    (runCLI "AB" "out.docx" (fun _ => none) (.failAfter 1)).1 "out.docx" = some "A" := by
  constructor
  · rfl
  · show (if "out.docx" = "out.docx" then some ("AB".toList.take 1).asString else none) =
      some "A"
    rw [if_pos rfl]
    rfl

/-- C5 (amended): a generation failure is propagated to the caller (the CLI
exits 1; a successful run exits 0 with the full document at the output
path), but the document is written with a single direct write at the output
path — no temporary file, rename, or cleanup — so a write failing after k
characters leaves the k-character prefix in place at the output path. -/
theorem generateResume_direct_write (buffer out : String) (fs : FSState) (k : Nat) :
    (runCLI buffer out fs .ok).2 = 0 ∧
    (runCLI buffer out fs .ok).1 out = some buffer ∧
    (runCLI buffer out fs (.failAfter k)).2 = 1 ∧
    (runCLI buffer out fs (.failAfter k)).1 out =
      some (buffer.toList.take k).asString := by
  refine ⟨rfl, ?_, rfl, ?_⟩ <;>
    · show (if out = out then _ else fs out) = _
      rw [if_pos rfl]

/-- Witness for C1: the reconstruction conjunct at a concrete bullet. -/
theorem splitBullet_emphasis_invariant_witness :
    ((splitBulletWithBolds (some "Built Python ETL pipelines for reporting") [] 2).map
        Span.text).foldr (· ++ ·) "" = "Built Python ETL pipelines for reporting" :=
  (splitBullet_emphasis_invariant "Built Python ETL pipelines for reporting" [] 2).1

/-- Witness for C10: a full ISO date evaluated through the lenient parse. -/
theorem formatDate_lenient_witness :
    formatDate (some "2021-12-31") = "Dec 2021" := by
  have h := formatDate_lenient.1 "2021-12-31" "2021".toList "12".toList
    ["31".toList] 12 (by decide) (by decide) (by decide) (by decide)
  simpa using h
